import Mathlib

/-!
# Verification of the `rust-btvm` lexical scanner (`src/scanner.rs`)

A shallow embedding of the scanner: the Rust `Peekable<Chars>` cursor is a
`List Char` (peek = head, next = tail), `Vec<TokenType>` is `List TokenType`,
and `usize` line counters are `Nat`.  Each `parse_*` function of the source
is translated to a pure Lean function on the `Scanner` state; the driver
loop `scan`, whose Rust original is an unbounded `while`, is given explicit
fuel and returns `none` when the fuel is exhausted (which models the
driver spinning without progress).
-/

set_option maxHeartbeats 1000000

namespace BTVM

/-- Model of Rust `char::is_numeric`, restricted to its ASCII fragment: the
decimal digit range `'0'..='9'`.  The real predicate additionally accepts
non-ASCII Unicode numerics (categories Nd/Nl/No, e.g. '½'), so the theorems
that quantify over gate-passing characters cover the ASCII fragment of the
input space. -/
def isNumericChar (c : Char) : Bool := 48 ≤ c.toNat && c.toNat ≤ 57

/-- Model of Rust `char::is_alphabetic` on the ASCII fragment: the ranges
`'A'..='Z'` and `'a'..='z'`. -/
def isAlphabeticChar (c : Char) : Bool :=
  (65 ≤ c.toNat && c.toNat ≤ 90) || (97 ≤ c.toNat && c.toNat ≤ 122)

/-- Model of Rust `char::is_alphanumeric` (alphabetic or numeric). -/
def isAlphanumericChar (c : Char) : Bool := isAlphabeticChar c || isNumericChar c

/-- The `TokenType` enum of `scanner.rs`.  `Number` carries an exact rational
value in place of the Rust `f64` (no claim under verification depends on
floating-point rounding, only on which token is produced). -/
inductive TokenType where
  | LeftParen
  | RightParen
  | LeftBrace
  | RightBrace
  | Comma
  | Dot
  | Minus
  | Plus
  | Semicolon
  | Slash
  | Star
  | Bang
  | BangEqual
  | Equal
  | EqualEqual
  | Greater
  | GreaterEqual
  | Less
  | LessEqual
  | Identifier (name : String)
  | String (s : String)
  | Number (value : Rat)
  | And
  | Class
  | Else
  | False
  | Fun
  | For
  | If
  | Nil
  | Or
  | Print
  | Return
  | Super
  | This
  | True
  | Var
  | While
  | Error (msg : String)
  | Eof
deriving DecidableEq, Repr

/-- The `Scanner` struct: remaining source characters, accumulated tokens,
current line counter. -/
structure Scanner where
  source : List Char
  tokens : List TokenType
  line : Nat
deriving DecidableEq, Repr

/-- Exact value of a digit string, `digitsToNat "123" = 123`. -/
def digitsToNat (ds : List Char) : Nat :=
  ds.foldl (fun n c => 10 * n + (c.toNat - 48)) 0

/-- The digit class of Rust's floating-point grammar (`str::parse::<f64>`):
exactly the ASCII digits `'0'..='9'`.  This is strictly narrower than the
number stage's gate `char::is_numeric`, which also accepts other Unicode
numerics (e.g. '½') — characters the float parser rejects. -/
def isAsciiDigit (c : Char) : Bool := 48 ≤ c.toNat && c.toNat ≤ 57

/-- Model of Rust `str::parse::<f64>` restricted to the strings the number
stage can accumulate (characters passing the numeric gate, plus `'.'`; no
sign, exponent, infinity or NaN forms can occur there).  On that domain the
Rust grammar accepts exactly the ASCII-digit forms
`Digit+ | Digit+ '.' Digit* | Digit* '.' Digit+`, with the value (integer
part, point, fraction digits) returned exactly as a rational; anything else
— several dots, or a non-ASCII numeric such as '½' — falls through to
`none`, as in Rust. -/
def parseF64 (s : List Char) : Option Rat :=
  match s.dropWhile isAsciiDigit with
  | [] =>
    if (s.takeWhile isAsciiDigit).isEmpty then none
    else some (mkRat (digitsToNat (s.takeWhile isAsciiDigit)) 1)
  | '.' :: frac =>
    if (s.takeWhile isAsciiDigit).isEmpty && frac.isEmpty then none
    else if frac.all isAsciiDigit then
      some (mkRat (digitsToNat (s.takeWhile isAsciiDigit ++ frac)) (10 ^ frac.length))
    else none
  | _ => none

/-- Result of the accumulation loop inside `parse_number`: remaining source,
line counter, accumulated characters, and whether the loop returned early
with the `Expected digit after '.'` error. -/
structure NumLoopRes where
  source : List Char
  line : Nat
  acc : List Char
  err : Bool
deriving DecidableEq, Repr

/-- The `while let Some(&ch) = scanner.source.peek()` loop of `parse_number`.
The source checks `ch == '\n'` and `ch == '.'` in sequence after consuming
`ch`; since the two tests are mutually exclusive the branches are transcribed
as disjoint cases (for `ch = '.'` the newline branch cannot fire, and
conversely).  The newline branch consumes a second character
(`scanner.source.next()` again), hence the `rest.tail`. -/
def numberLoop (src : List Char) (line : Nat) (acc : List Char) : NumLoopRes :=
  match src with
  | [] => ⟨[], line, acc, false⟩
  | ch :: rest =>
    if isNumericChar ch || ch = '.' then
      if ch = '.' then
        match rest with
        | next_ch :: _ =>
          if !(isNumericChar next_ch) then ⟨rest, line, acc ++ [ch], true⟩
          else numberLoop rest line (acc ++ [ch])
        | [] => numberLoop rest line (acc ++ [ch])
      else if ch = '\n' then
        -- the second `next()` of the newline branch: on empty input it is a
        -- no-op and the loop then exits, which is the inlined base case
        match rest with
        | _ :: rest2 => numberLoop rest2 (line + 1) (acc ++ [ch])
        | [] => ⟨[], line + 1, acc ++ [ch], false⟩
      else
        numberLoop rest line (acc ++ [ch])
    else ⟨ch :: rest, line, acc, false⟩

/-- `fn parse_number` of `scanner.rs`. -/
def parse_number (sc : Scanner) : Scanner :=
  match sc.source with
  | [] => sc
  | ch :: _ =>
    if !(isNumericChar ch) then sc
    else
      let r := numberLoop sc.source sc.line []
      if r.err then
        { source := r.source, tokens := sc.tokens ++ [.Error "Expected digit after '.'"],
          line := r.line }
      else
        match parseF64 r.acc with
        | some number =>
          { source := r.source, tokens := sc.tokens ++ [.Number number], line := r.line }
        | none =>
          { source := r.source, tokens := sc.tokens ++ [.Error "Failed to parse number"],
            line := r.line }

/-- The character-consuming loop of `parse_string`: returns the remaining
source after the closing quote (or end of input) together with the buffer. -/
def stringLoop (src : List Char) (buf : List Char) : List Char × List Char :=
  match src with
  | [] => ([], buf)
  | ch :: rest =>
    if ch = '"' then (rest, buf)
    else stringLoop rest (buf ++ [ch])

/-- `fn parse_string` of `scanner.rs`.  Note: the loop does not touch the
line counter, even when it consumes newline characters. -/
def parse_string (sc : Scanner) : Scanner :=
  match sc.source with
  | '"' :: rest =>
    let r := stringLoop rest []
    { source := r.1, tokens := sc.tokens ++ [.String (String.mk r.2)], line := sc.line }
  | _ => sc

/-- The whitespace loop of `parse_whitespace` on (source, line). -/
def wsLoop (src : List Char) (line : Nat) : List Char × Nat :=
  match src with
  | [] => ([], line)
  | ch :: rest =>
    if ch = ' ' || ch = '\r' || ch = '\t' then wsLoop rest line
    else if ch = '\n' then wsLoop rest (line + 1)
    else (ch :: rest, line)

/-- `fn parse_whitespace` of `scanner.rs`. -/
def parse_whitespace (sc : Scanner) : Scanner :=
  { source := (wsLoop sc.source sc.line).1, tokens := sc.tokens,
    line := (wsLoop sc.source sc.line).2 }

/-- The `while` loop of `parse_comment`: consume up to and including the
terminating newline (bumping the line counter) or to end of input. -/
def commentLoop (src : List Char) (line : Nat) : List Char × Nat :=
  match src with
  | [] => ([], line)
  | ch :: rest =>
    if ch = '\n' then (rest, line + 1)
    else commentLoop rest line

/-- `fn parse_comment` of `scanner.rs`.  As in the source, the first `/` is
consumed unconditionally; only if a second `/` follows does the line-consuming
loop run (the loop starts at the second `/`, which its first iteration
consumes). -/
def parse_comment (sc : Scanner) : Scanner :=
  match sc.source with
  | '/' :: rest =>
    match rest with
    | '/' :: _ =>
      { source := (commentLoop rest sc.line).1, tokens := sc.tokens,
        line := (commentLoop rest sc.line).2 }
    | _ => { source := rest, tokens := sc.tokens, line := sc.line }
  | _ => sc

/-- The identifier-accumulating loop of `parse_identifier`. -/
def identLoop (src : List Char) (acc : List Char) : List Char × List Char :=
  match src with
  | [] => ([], acc)
  | ch :: rest =>
    if isAlphanumericChar ch || ch = '_' then identLoop rest (acc ++ [ch])
    else (ch :: rest, acc)

/-- The keyword table of `parse_identifier`: exact, case-sensitive match
against the sixteen reserved words, otherwise an `Identifier` token. -/
def keywordToken (s : String) : TokenType :=
  if s = "and" then .And
  else if s = "class" then .Class
  else if s = "else" then .Else
  else if s = "false" then .False
  else if s = "fun" then .Fun
  else if s = "for" then .For
  else if s = "if" then .If
  else if s = "nil" then .Nil
  else if s = "or" then .Or
  else if s = "print" then .Print
  else if s = "return" then .Return
  else if s = "super" then .Super
  else if s = "this" then .This
  else if s = "true" then .True
  else if s = "var" then .Var
  else if s = "while" then .While
  else .Identifier s

/-- `fn parse_identifier` of `scanner.rs`. -/
def parse_identifier (sc : Scanner) : Scanner :=
  match sc.source with
  | ch :: _ =>
    if isAlphabeticChar ch || ch = '_' then
      { source := (identLoop sc.source []).1,
        tokens := sc.tokens ++ [keywordToken (String.mk (identLoop sc.source []).2)],
        line := sc.line }
    else sc
  | [] => sc

/-- `fn parse_pontuation` of `scanner.rs` (sic). -/
def parse_pontuation (sc : Scanner) : Scanner :=
  match sc.source with
  | [] => sc
  | ch :: rest =>
    match ch with
    | '(' => { source := rest, tokens := sc.tokens ++ [.LeftParen], line := sc.line }
    | ')' => { source := rest, tokens := sc.tokens ++ [.RightParen], line := sc.line }
    | '{' => { source := rest, tokens := sc.tokens ++ [.LeftBrace], line := sc.line }
    | '}' => { source := rest, tokens := sc.tokens ++ [.RightBrace], line := sc.line }
    | ',' => { source := rest, tokens := sc.tokens ++ [.Comma], line := sc.line }
    | '.' => { source := rest, tokens := sc.tokens ++ [.Dot], line := sc.line }
    | '-' => { source := rest, tokens := sc.tokens ++ [.Minus], line := sc.line }
    | '+' => { source := rest, tokens := sc.tokens ++ [.Plus], line := sc.line }
    | '/' => { source := rest, tokens := sc.tokens ++ [.Slash], line := sc.line }
    | ';' => { source := rest, tokens := sc.tokens ++ [.Semicolon], line := sc.line }
    | '*' => { source := rest, tokens := sc.tokens ++ [.Star], line := sc.line }
    | '!' =>
      match rest with
      | '=' :: rest2 => { source := rest2, tokens := sc.tokens ++ [.BangEqual], line := sc.line }
      | _ => { source := rest, tokens := sc.tokens ++ [.Bang], line := sc.line }
    | '=' =>
      match rest with
      | '=' :: rest2 => { source := rest2, tokens := sc.tokens ++ [.EqualEqual], line := sc.line }
      | _ => { source := rest, tokens := sc.tokens ++ [.Equal], line := sc.line }
    | '<' =>
      match rest with
      | '=' :: rest2 => { source := rest2, tokens := sc.tokens ++ [.LessEqual], line := sc.line }
      | _ => { source := rest, tokens := sc.tokens ++ [.Less], line := sc.line }
    | '>' =>
      match rest with
      | '=' :: rest2 => { source := rest2, tokens := sc.tokens ++ [.GreaterEqual], line := sc.line }
      | _ => { source := rest, tokens := sc.tokens ++ [.Greater], line := sc.line }
    | _ => sc

/-- The stage vector built in `scan`, in source order. -/
def pipeStages : List (Scanner → Scanner) :=
  [parse_whitespace, parse_comment, parse_identifier, parse_number,
   parse_string, parse_pontuation]

/-- `fn pipe`: fold the stages over the scanner state. -/
def pipe (sc : Scanner) : Scanner :=
  pipeStages.foldl (fun acc f => f acc) sc

/-- The `while scanner.source.peek().is_some()` driver loop of `scan`, with
explicit fuel.  `none` means the fuel ran out, which models the Rust loop
failing to terminate (each genuine iteration of the Rust loop corresponds to
one unit of fuel). -/
def scanLoop : Nat → Scanner → Option Scanner
  | 0, _ => none
  | fuel + 1, sc =>
    match sc.source with
    | [] => some { sc with tokens := sc.tokens ++ [.Eof] }
    | _ :: _ =>
      match sc.tokens.getLast? with
      | some (.Error _) => some sc
      | _ => scanLoop fuel (pipe sc)

/-- `fn scan` of `scanner.rs`.  A budget of `length + 1` loop iterations is
sufficient whenever every iteration consumes at least one character, which
the termination theorem establishes for inputs made of handled characters. -/
def scan (source : List Char) : Option Scanner :=
  scanLoop (source.length + 1) { source := source, tokens := [], line := 1 }

end BTVM

namespace BTVM

/-! ## Concrete evaluations -/

/-- C10: scanning the empty input performs no pipeline pass and returns the
single End-of-stream token with line counter 1 and no Error token. -/
theorem scan_empty_input : scan [] = some ⟨[], [.Eof], 1⟩ := rfl

/-- C2 (evaluation at the failing input): on the source "5." — a numeric
literal whose final character is a dot at end of input — the scanner does
NOT emit the "Expected digit after '.'" Error: the end-of-input lookahead
case skips the digit-after-dot check, "5." parses as a float, and the scan
silently produces a Number token followed by End-of-stream. -/
theorem scan_trailing_dot_accepted :
    scan ("5.".toList) = some ⟨[], [.Number 5, .Eof], 1⟩ := by decide

/-- C4 (evaluation at the failing input): when the current character is a
lone '/' not followed by a second '/', the comment stage consumes and
discards it — the scanner state is changed and no Slash token is ever
emitted: scanning the one-character source "/" yields only End-of-stream. -/
theorem comment_stage_consumes_lone_slash :
    parse_comment ⟨['/', '3'], [], 1⟩ = ⟨['3'], [], 1⟩ ∧
    scan ("/".toList) = some ⟨[], [.Eof], 1⟩ := by
  exact ⟨rfl, by decide⟩

/-- C1 (counterexample): on the source `1."a" 2."b` the scan produces TWO
Error tokens, neither of which is the last element, and the End-of-stream
token is appended even though Errors were produced — because the stages
running after the number stage inside the same pipeline pass append tokens
past the Error, so the driver's last-token check never sees it. -/
theorem scan_error_not_last :
    (scan ("1.\"a\" 2.\"b".toList)).map Scanner.tokens =
      some [.Error "Expected digit after '.'", .String "a",
            .Error "Expected digit after '.'", .String "b", .Eof] ∧
    List.count (TokenType.Error "Expected digit after '.'")
      [TokenType.Error "Expected digit after '.'", .String "a",
       .Error "Expected digit after '.'", .String "b", .Eof] = 2 := by
  exact ⟨by decide, by decide⟩

/-- C3 (counterexample): scanning a string literal containing a newline
consumes that newline without incrementing the line counter: the source
`"a\nb"` contains one newline, all of it is consumed, yet the final line
counter is 1, not 1 + 1. -/
theorem scan_newline_in_string_not_counted :
    scan ("\"a\nb\"".toList) = some ⟨[], [.String "a\nb", .Eof], 1⟩ ∧
    List.count '\n' ("\"a\nb\"".toList) = 1 := by
  exact ⟨by decide, by decide⟩

/-- C5 (counterexample): the defensive parse-failure branch of the number
stage is reachable: on the source "1.2.3" every dot is followed by a digit,
so the character-class gate accepts the whole run, but "1.2.3" does not
parse as a float and scan emits the Error("Failed to parse number") token. -/
theorem scan_parse_failure_reachable :
    scan ("1.2.3".toList) = some ⟨[], [.Error "Failed to parse number", .Eof], 1⟩ := by
  decide

end BTVM

namespace BTVM

/-- C8: for a scanner state whose current character is one of '!', '=', '<',
'>', the punctuation stage consumes it and peeks at the next character: if
that is '=', it is consumed too and the two-character token (BangEqual,
EqualEqual, LessEqual, GreaterEqual) is emitted; otherwise only the
one-character token (Bang, Equal, Less, Greater) is emitted and the
following character is left unconsumed. -/
theorem pontuation_equal_lookahead (ts : List TokenType) (l : Nat) (rest : List Char) :
    (parse_pontuation ⟨'!' :: rest, ts, l⟩ =
      if rest.head? = some '=' then ⟨rest.tail, ts ++ [.BangEqual], l⟩
      else ⟨rest, ts ++ [.Bang], l⟩) ∧
    (parse_pontuation ⟨'=' :: rest, ts, l⟩ =
      if rest.head? = some '=' then ⟨rest.tail, ts ++ [.EqualEqual], l⟩
      else ⟨rest, ts ++ [.Equal], l⟩) ∧
    (parse_pontuation ⟨'<' :: rest, ts, l⟩ =
      if rest.head? = some '=' then ⟨rest.tail, ts ++ [.LessEqual], l⟩
      else ⟨rest, ts ++ [.Less], l⟩) ∧
    (parse_pontuation ⟨'>' :: rest, ts, l⟩ =
      if rest.head? = some '=' then ⟨rest.tail, ts ++ [.GreaterEqual], l⟩
      else ⟨rest, ts ++ [.Greater], l⟩) := by
  rcases rest with _ | ⟨r, rs⟩
  · exact ⟨rfl, rfl, rfl, rfl⟩
  · by_cases hr : r = '='
    · subst hr; exact ⟨rfl, rfl, rfl, rfl⟩
    · refine ⟨?_, ?_, ?_, ?_⟩ <;>
        (rw [if_neg (by simp [hr])]; simp only [parse_pontuation]; split <;> simp_all)

end BTVM

namespace BTVM

/-! ## Character-class and loop lemmas -/

/-- The four characters consumed by the whitespace stage. -/
def isWsChar (c : Char) : Bool := c = ' ' || c = '\r' || c = '\t' || c = '\n'

lemma bool_ne {p : Char → Bool} {c d : Char} (h : p c = true) (hd : p d = false) : c ≠ d := by
  intro he; rw [he, hd] at h; cases h

lemma numeric_not_alphabetic {c : Char} (h : isNumericChar c = true) :
    isAlphabeticChar c = false := by
  simp [isNumericChar] at h
  simp [isAlphabeticChar]
  omega

lemma alphanumeric_of_alphabetic {c : Char} (h : isAlphabeticChar c = true) :
    isAlphanumericChar c = true := by
  simp [isAlphanumericChar, h]

lemma isWsChar_eq_false {c : Char} (h1 : c ≠ ' ') (h2 : c ≠ '\r') (h3 : c ≠ '\t')
    (h4 : c ≠ '\n') : isWsChar c = false := by
  simp [isWsChar, h1, h2, h3, h4]

lemma wsLoop_eq (src : List Char) : ∀ line, wsLoop src line =
    (src.dropWhile isWsChar, line + (src.takeWhile isWsChar).count '\n') := by
  induction src with
  | nil => intro line; simp [wsLoop]
  | cons ch rest ih =>
    intro line
    by_cases h1 : ch = ' ' ∨ ch = '\r' ∨ ch = '\t'
    · rcases h1 with h | h | h <;> subst h <;>
        simp [wsLoop, ih, isWsChar, List.count_cons]
    · push_neg at h1
      by_cases h2 : ch = '\n'
      · subst h2
        have hws : isWsChar '\n' = true := by decide
        simp only [wsLoop, ih]
        simp [List.dropWhile_cons, List.takeWhile_cons, hws, List.count_cons, Prod.ext_iff]
        omega
      · have hw : isWsChar ch = false := isWsChar_eq_false h1.1 h1.2.1 h1.2.2 h2
        have hw1 : (ch = ' ' || ch = '\r' || ch = '\t') = false := by
          simp [h1.1, h1.2.1, h1.2.2]
        simp [wsLoop, hw1, h2, List.dropWhile_cons, List.takeWhile_cons, hw]

lemma commentLoop_spec (src : List Char) : ∀ line, ∃ pre,
    pre ++ (commentLoop src line).1 = src ∧
    (commentLoop src line).2 = line + pre.count '\n' := by
  induction src with
  | nil => intro line; exact ⟨[], by simp [commentLoop]⟩
  | cons ch rest ih =>
    intro line
    by_cases h : ch = '\n'
    · subst h
      exact ⟨['\n'], by simp [commentLoop], by simp [commentLoop, List.count_cons]⟩
    · obtain ⟨pre, h1, h2⟩ := ih line
      refine ⟨ch :: pre, by simp [commentLoop, h, h1], ?_⟩
      simp [commentLoop, h, h2, List.count_cons]

lemma commentLoop_suffix (src : List Char) (line : Nat) :
    (commentLoop src line).1 <:+ src := by
  obtain ⟨pre, h1, -⟩ := commentLoop_spec src line
  exact ⟨pre, h1⟩

lemma stringLoop_suffix (src : List Char) : ∀ buf, (stringLoop src buf).1 <:+ src := by
  induction src with
  | nil => intro buf; simp [stringLoop]
  | cons ch rest ih =>
    intro buf
    by_cases h : ch = '"'
    · subst h
      have : (stringLoop ('"' :: rest) buf).1 = rest := by simp [stringLoop]
      rw [this]
      exact List.suffix_cons '"' rest
    · exact ((by simpa [stringLoop, h] using ih (buf ++ [ch])) :
        (stringLoop (ch :: rest) buf).1 <:+ rest).trans (List.suffix_cons ch rest)

lemma stringLoop_no_quote (src : List Char) (h : '"' ∉ src) :
    ∀ buf, stringLoop src buf = ([], buf ++ src) := by
  induction src with
  | nil => intro buf; simp [stringLoop]
  | cons ch rest ih =>
    intro buf
    have hch : ch ≠ '"' := fun he => h (he ▸ List.mem_cons_self ch rest)
    have hrest : '"' ∉ rest := fun hm => h (List.mem_cons_of_mem ch hm)
    simp [stringLoop, hch, ih hrest]

lemma identLoop_suffix (src : List Char) : ∀ acc, (identLoop src acc).1 <:+ src := by
  induction src with
  | nil => intro acc; simp [identLoop]
  | cons ch rest ih =>
    intro acc
    by_cases h : (isAlphanumericChar ch || ch = '_') = true
    · exact ((by simpa [identLoop, h] using ih (acc ++ [ch])) :
        (identLoop (ch :: rest) acc).1 <:+ rest).trans (List.suffix_cons ch rest)
    · simp [identLoop, h]

lemma identLoop_all (src : List Char)
    (h : ∀ c ∈ src, (isAlphanumericChar c || c = '_') = true) :
    ∀ acc, identLoop src acc = ([], acc ++ src) := by
  induction src with
  | nil => intro acc; simp [identLoop]
  | cons ch rest ih =>
    intro acc
    have hch := h ch (List.mem_cons_self ch rest)
    have hrest : ∀ c ∈ rest, (isAlphanumericChar c || c = '_') = true :=
      fun c hc => h c (List.mem_cons_of_mem ch hc)
    simp [identLoop, hch, ih hrest]

end BTVM

namespace BTVM

/-! ## Number-stage lemmas -/

lemma numberLoop_nil (line : Nat) (acc : List Char) :
    numberLoop [] line acc = ⟨[], line, acc, false⟩ := rfl

lemma numberLoop_dot_err {next_ch : Char} (tail : List Char) (line : Nat) (acc : List Char)
    (h : isNumericChar next_ch = false) :
    numberLoop ('.' :: next_ch :: tail) line acc = ⟨next_ch :: tail, line, acc ++ ['.'], true⟩ := by
  simp [numberLoop, h]

lemma numberLoop_dot_cont {next_ch : Char} (tail : List Char) (line : Nat) (acc : List Char)
    (h : isNumericChar next_ch = true) :
    numberLoop ('.' :: next_ch :: tail) line acc =
      numberLoop (next_ch :: tail) line (acc ++ ['.']) := by
  simp [numberLoop, h]

lemma numberLoop_dot_nil (line : Nat) (acc : List Char) :
    numberLoop ['.'] line acc = ⟨[], line, acc ++ ['.'], false⟩ := by
  simp [numberLoop, numberLoop_nil]

lemma numberLoop_stop {ch : Char} (rest : List Char) (line : Nat) (acc : List Char)
    (h : (isNumericChar ch || ch = '.') = false) :
    numberLoop (ch :: rest) line acc = ⟨ch :: rest, line, acc, false⟩ := by
  rw [numberLoop.eq_def]
  simp [h]

lemma numberLoop_cons_of_numeric {c : Char} (rest : List Char) (line : Nat) (acc : List Char)
    (h : isNumericChar c = true) :
    numberLoop (c :: rest) line acc = numberLoop rest line (acc ++ [c]) := by
  have hd : c ≠ '.' := bool_ne h (by decide)
  have hn : c ≠ '\n' := bool_ne h (by decide)
  rw [numberLoop.eq_def]
  simp [h, hd, hn]

lemma numberLoop_spec (src : List Char) (line : Nat) (acc : List Char) :
    (numberLoop src line acc).source <:+ src ∧ line ≤ (numberLoop src line acc).line := by
  induction src, line, acc using numberLoop.induct with
  | case1 line acc => exact ⟨List.suffix_refl _, le_refl _⟩
  | case2 line acc next_ch tail h1 h2 =>
    rw [numberLoop_dot_err tail line acc (by simpa using h1)]
    exact ⟨List.suffix_cons _ _, le_refl _⟩
  | case3 line acc next_ch tail h1 h2 ih =>
    rw [numberLoop_dot_cont tail line acc (by simpa using h1)]
    exact ⟨ih.1.trans (List.suffix_cons _ _), ih.2⟩
  | case4 line acc h ih =>
    rw [numberLoop_dot_nil]
    exact ⟨List.nil_suffix, le_refl _⟩
  | case5 line acc next_ch tail h1 h2 => exact absurd h1 (by decide)
  | case6 line acc h1 h2 => exact absurd h1 (by decide)
  | case7 line acc ch rest h1 h2 h3 ih =>
    have hnum : isNumericChar ch = true := by simpa [h2] using h1
    rw [numberLoop_cons_of_numeric rest line acc hnum]
    exact ⟨ih.1.trans (List.suffix_cons _ _), ih.2⟩
  | case8 line acc ch rest h =>
    rw [numberLoop_stop rest line acc (by simpa using h)]
    exact ⟨List.suffix_refl _, le_refl _⟩

lemma parse_number_eq {c : Char} (rest : List Char) (ts : List TokenType) (l : Nat)
    (h : isNumericChar c = true) :
    ∃ tk, tk ≠ TokenType.Eof ∧
      parse_number ⟨c :: rest, ts, l⟩ =
        ⟨(numberLoop (c :: rest) l []).source, ts ++ [tk], (numberLoop (c :: rest) l []).line⟩ := by
  simp only [parse_number, h, Bool.not_true, Bool.false_eq_true, if_false]
  split
  · exact ⟨.Error "Expected digit after '.'", by simp, rfl⟩
  · split
    · exact ⟨.Number _, by simp, rfl⟩
    · exact ⟨.Error "Failed to parse number", by simp, rfl⟩

/-! ## Per-stage no-op lemmas (the stage does not trigger) -/

lemma ws_nop (c : Char) (rest : List Char) (ts : List TokenType) (l : Nat)
    (hws : isWsChar c = false) :
    parse_whitespace ⟨c :: rest, ts, l⟩ = ⟨c :: rest, ts, l⟩ := by
  simp [isWsChar] at hws
  obtain ⟨⟨⟨hsp, hcr⟩, htb⟩, hnl⟩ := hws
  have h1 : (c = ' ' || c = '\r' || c = '\t') = false := by simp [hsp, hcr, htb]
  simp [parse_whitespace, wsLoop, h1, hnl]

lemma comment_nop (c : Char) (rest : List Char) (ts : List TokenType) (l : Nat)
    (h : c ≠ '/') :
    parse_comment ⟨c :: rest, ts, l⟩ = ⟨c :: rest, ts, l⟩ := by
  simp only [parse_comment]
  split <;> simp_all

lemma ident_nop (c : Char) (rest : List Char) (ts : List TokenType) (l : Nat)
    (h : (isAlphabeticChar c || c = '_') = false) :
    parse_identifier ⟨c :: rest, ts, l⟩ = ⟨c :: rest, ts, l⟩ := by
  simp [parse_identifier, h]

lemma number_nop (c : Char) (rest : List Char) (ts : List TokenType) (l : Nat)
    (h : isNumericChar c = false) :
    parse_number ⟨c :: rest, ts, l⟩ = ⟨c :: rest, ts, l⟩ := by
  simp [parse_number, h]

lemma string_nop (c : Char) (rest : List Char) (ts : List TokenType) (l : Nat)
    (h : c ≠ '"') :
    parse_string ⟨c :: rest, ts, l⟩ = ⟨c :: rest, ts, l⟩ := by
  simp only [parse_string]
  split <;> simp_all

end BTVM

namespace BTVM

/-! ## Stage-level structure: each stage leaves a suffix of the source,
only appends (non-Eof) tokens, and never decreases the line counter. -/

def StageSpec (f : Scanner → Scanner) : Prop :=
  ∀ sc : Scanner, (f sc).source <:+ sc.source ∧
    (∃ new, (f sc).tokens = sc.tokens ++ new ∧ ∀ t ∈ new, t ≠ TokenType.Eof) ∧
    sc.line ≤ (f sc).line

lemma idStage {sc sc2 : Scanner} (he : sc2 = sc) :
    sc2.source <:+ sc.source ∧
    (∃ new, sc2.tokens = sc.tokens ++ new ∧ ∀ t ∈ new, t ≠ TokenType.Eof) ∧
    sc.line ≤ sc2.line := by
  subst he
  exact ⟨List.suffix_refl _, ⟨[], by simp, by simp⟩, le_refl _⟩

lemma keywordToken_ne_eof (s : String) : keywordToken s ≠ TokenType.Eof := by
  intro h
  unfold keywordToken at h
  by_cases h1 : s = "and"
  . rw [if_pos h1] at h
    exact TokenType.noConfusion h
  . rw [if_neg h1] at h
    by_cases h2 : s = "class"
    . rw [if_pos h2] at h
      exact TokenType.noConfusion h
    . rw [if_neg h2] at h
      by_cases h3 : s = "else"
      . rw [if_pos h3] at h
        exact TokenType.noConfusion h
      . rw [if_neg h3] at h
        by_cases h4 : s = "false"
        . rw [if_pos h4] at h
          exact TokenType.noConfusion h
        . rw [if_neg h4] at h
          by_cases h5 : s = "fun"
          . rw [if_pos h5] at h
            exact TokenType.noConfusion h
          . rw [if_neg h5] at h
            by_cases h6 : s = "for"
            . rw [if_pos h6] at h
              exact TokenType.noConfusion h
            . rw [if_neg h6] at h
              by_cases h7 : s = "if"
              . rw [if_pos h7] at h
                exact TokenType.noConfusion h
              . rw [if_neg h7] at h
                by_cases h8 : s = "nil"
                . rw [if_pos h8] at h
                  exact TokenType.noConfusion h
                . rw [if_neg h8] at h
                  by_cases h9 : s = "or"
                  . rw [if_pos h9] at h
                    exact TokenType.noConfusion h
                  . rw [if_neg h9] at h
                    by_cases h10 : s = "print"
                    . rw [if_pos h10] at h
                      exact TokenType.noConfusion h
                    . rw [if_neg h10] at h
                      by_cases h11 : s = "return"
                      . rw [if_pos h11] at h
                        exact TokenType.noConfusion h
                      . rw [if_neg h11] at h
                        by_cases h12 : s = "super"
                        . rw [if_pos h12] at h
                          exact TokenType.noConfusion h
                        . rw [if_neg h12] at h
                          by_cases h13 : s = "this"
                          . rw [if_pos h13] at h
                            exact TokenType.noConfusion h
                          . rw [if_neg h13] at h
                            by_cases h14 : s = "true"
                            . rw [if_pos h14] at h
                              exact TokenType.noConfusion h
                            . rw [if_neg h14] at h
                              by_cases h15 : s = "var"
                              . rw [if_pos h15] at h
                                exact TokenType.noConfusion h
                              . rw [if_neg h15] at h
                                by_cases h16 : s = "while"
                                . rw [if_pos h16] at h
                                  exact TokenType.noConfusion h
                                . rw [if_neg h16] at h
                                  exact TokenType.noConfusion h

lemma stageSpec_whitespace : StageSpec parse_whitespace := by
  intro sc
  refine ⟨?_, ⟨[], by simp [parse_whitespace], by simp⟩, ?_⟩
  · simp only [parse_whitespace, wsLoop_eq]
    exact List.dropWhile_suffix _
  · simp only [parse_whitespace, wsLoop_eq]
    exact Nat.le_add_right _ _

lemma stageSpec_comment : StageSpec parse_comment := by
  intro sc
  rcases sc with ⟨src, ts, l⟩
  rcases src with _ | ⟨c, rest⟩
  · exact idStage rfl
  · by_cases hc : c = '/'
    · subst hc
      rcases rest with _ | ⟨c2, rest2⟩
      · have he : parse_comment ⟨['/'], ts, l⟩ = ⟨[], ts, l⟩ := rfl
        rw [he]
        exact ⟨List.nil_suffix, ⟨[], by simp, by simp⟩, le_refl _⟩
      · by_cases hc2 : c2 = '/'
        · subst hc2
          have he : parse_comment ⟨'/' :: '/' :: rest2, ts, l⟩ =
              ⟨(commentLoop ('/' :: rest2) l).1, ts, (commentLoop ('/' :: rest2) l).2⟩ := rfl
          rw [he]
          obtain ⟨pre, h1, h2⟩ := commentLoop_spec ('/' :: rest2) l
          refine ⟨?_, ⟨[], by simp, by simp⟩, ?_⟩
          · exact (commentLoop_suffix ('/' :: rest2) l).trans (List.suffix_cons _ _)
          · rw [h2]; exact Nat.le_add_right _ _
        · have he : parse_comment ⟨'/' :: c2 :: rest2, ts, l⟩ = ⟨c2 :: rest2, ts, l⟩ := by
            simp only [parse_comment]
            split <;> simp_all
          rw [he]
          exact ⟨List.suffix_cons _ _, ⟨[], by simp, by simp⟩, le_refl _⟩
    · rw [comment_nop c rest ts l hc]
      exact ⟨List.suffix_refl _, ⟨[], by simp, by simp⟩, le_refl _⟩

lemma stageSpec_identifier : StageSpec parse_identifier := by
  intro sc
  rcases sc with ⟨src, ts, l⟩
  rcases src with _ | ⟨c, rest⟩
  · exact idStage rfl
  · by_cases h : (isAlphabeticChar c || c = '_') = true
    · have he : parse_identifier ⟨c :: rest, ts, l⟩ =
          ⟨(identLoop (c :: rest) []).1,
           ts ++ [keywordToken (String.mk (identLoop (c :: rest) []).2)], l⟩ := by
        simp [parse_identifier, h]
      rw [he]
      refine ⟨identLoop_suffix _ _, ⟨[keywordToken _], rfl, ?_⟩, le_refl _⟩
      intro t ht
      simp only [List.mem_singleton] at ht
      subst ht
      exact keywordToken_ne_eof _
    · rw [ident_nop c rest ts l (by simpa using h)]
      exact ⟨List.suffix_refl _, ⟨[], by simp, by simp⟩, le_refl _⟩

lemma stageSpec_number : StageSpec parse_number := by
  intro sc
  rcases sc with ⟨src, ts, l⟩
  rcases src with _ | ⟨c, rest⟩
  · exact idStage rfl
  · by_cases h : isNumericChar c = true
    · obtain ⟨tk, htk, heq⟩ := parse_number_eq rest ts l h
      rw [heq]
      obtain ⟨hs, hl⟩ := numberLoop_spec (c :: rest) l []
      refine ⟨hs, ⟨[tk], rfl, ?_⟩, hl⟩
      intro t ht
      simp only [List.mem_singleton] at ht
      subst ht
      exact htk
    · rw [number_nop c rest ts l (by simpa using h)]
      exact ⟨List.suffix_refl _, ⟨[], by simp, by simp⟩, le_refl _⟩

lemma stageSpec_string : StageSpec parse_string := by
  intro sc
  rcases sc with ⟨src, ts, l⟩
  rcases src with _ | ⟨c, rest⟩
  · exact idStage rfl
  · by_cases h : c = '"'
    · subst h
      have he : parse_string ⟨'"' :: rest, ts, l⟩ =
          ⟨(stringLoop rest []).1,
           ts ++ [.String (String.mk (stringLoop rest []).2)], l⟩ := rfl
      rw [he]
      exact ⟨(stringLoop_suffix _ _).trans (List.suffix_cons _ _),
        ⟨[.String _], rfl, by simp⟩, le_refl _⟩
    · rw [string_nop c rest ts l h]
      exact ⟨List.suffix_refl _, ⟨[], by simp, by simp⟩, le_refl _⟩

lemma stageSpec_pontuation : StageSpec parse_pontuation := by
  intro sc
  rcases sc with ⟨src, ts, l⟩
  rcases src with _ | ⟨c, rest⟩
  · exact idStage rfl
  · simp only [parse_pontuation]
    split
    all_goals
      first
        | exact ⟨List.suffix_refl _, ⟨[], by simp, by simp⟩, le_refl _⟩
        | exact ⟨List.suffix_cons _ _, ⟨_, rfl, by simp⟩, le_refl _⟩
        | (split <;>
            first
              | exact ⟨(List.suffix_cons _ _).trans (List.suffix_cons _ _),
                  ⟨_, rfl, by simp⟩, le_refl _⟩
              | exact ⟨List.suffix_cons _ _, ⟨_, rfl, by simp⟩, le_refl _⟩)

lemma stageSpec_comp {f g : Scanner → Scanner} (hf : StageSpec f) (hg : StageSpec g) :
    StageSpec (fun sc => g (f sc)) := by
  intro sc
  obtain ⟨s1, ⟨n1, t1, e1⟩, l1⟩ := hf sc
  obtain ⟨s2, ⟨n2, t2, e2⟩, l2⟩ := hg (f sc)
  refine ⟨s2.trans s1, ⟨n1 ++ n2, ?_, ?_⟩, l1.trans l2⟩
  · rw [t2, t1, List.append_assoc]
  · intro t ht
    rcases List.mem_append.mp ht with h | h
    exacts [e1 t h, e2 t h]

lemma pipe_eq (sc : Scanner) : pipe sc =
    parse_pontuation (parse_string (parse_number (parse_identifier
      (parse_comment (parse_whitespace sc))))) := rfl

lemma stageSpec_pipe : StageSpec pipe := by
  have h := stageSpec_comp (stageSpec_comp (stageSpec_comp (stageSpec_comp
    (stageSpec_comp stageSpec_whitespace stageSpec_comment) stageSpec_identifier)
    stageSpec_number) stageSpec_string) stageSpec_pontuation
  intro sc
  exact h sc

end BTVM

namespace BTVM

/-! ## Driver-loop invariants -/

lemma scanLoop_eof_spec : ∀ (fuel : Nat) (sc r : Scanner), scanLoop fuel sc = some r →
    TokenType.Eof ∉ sc.tokens →
    r.tokens.count TokenType.Eof ≤ 1 ∧
    (TokenType.Eof ∈ r.tokens → r.tokens.getLast? = some TokenType.Eof) := by
  intro fuel
  induction fuel with
  | zero => intro sc r h; exact absurd h (by simp [scanLoop])
  | succ n ih =>
    intro sc r h hnin
    rcases sc with ⟨src, ts, l⟩
    rcases src with _ | ⟨c, rest⟩
    · simp only [scanLoop, Option.some.injEq] at h
      subst h
      refine ⟨?_, fun _ => List.getLast?_concat _⟩
      rw [List.count_append, List.count_eq_zero.mpr hnin]
      simp
    · simp only [scanLoop] at h
      split at h
      · simp only [Option.some.injEq] at h
        subst h
        have h0 : List.count TokenType.Eof ts = 0 := List.count_eq_zero.mpr hnin
        exact ⟨by simp [h0], fun hm => absurd hm hnin⟩
      · obtain ⟨-, ⟨new, ht, he⟩, -⟩ := stageSpec_pipe ⟨c :: rest, ts, l⟩
        apply ih (pipe ⟨c :: rest, ts, l⟩) r h
        rw [ht]
        intro hm
        rcases List.mem_append.mp hm with hm | hm
        exacts [hnin hm, he _ hm rfl]

lemma scanLoop_line_mono : ∀ (fuel : Nat) (sc r : Scanner), scanLoop fuel sc = some r →
    sc.line ≤ r.line := by
  intro fuel
  induction fuel with
  | zero => intro sc r h; exact absurd h (by simp [scanLoop])
  | succ n ih =>
    intro sc r h
    rcases sc with ⟨src, ts, l⟩
    rcases src with _ | ⟨c, rest⟩
    · simp only [scanLoop, Option.some.injEq] at h
      subst h
      exact le_refl _
    · simp only [scanLoop] at h
      split at h
      · simp only [Option.some.injEq] at h
        subst h
        exact le_refl _
      · exact (stageSpec_pipe ⟨c :: rest, ts, l⟩).2.2.trans
          (ih (pipe ⟨c :: rest, ts, l⟩) r h)

/-! ## Progress: on handled characters each pipeline pass consumes input -/

def handledChar (c : Char) : Bool :=
  isWsChar c || c = '/' || isAlphabeticChar c || c = '_' || isNumericChar c || c = '"' ||
  c = '(' || c = ')' || c = '{' || c = '}' || c = ',' || c = '.' || c = '-' || c = '+' ||
  c = ';' || c = '*' || c = '!' || c = '=' || c = '<' || c = '>'

lemma chain5_suffix (sc : Scanner) :
    (parse_pontuation (parse_string (parse_number (parse_identifier
      (parse_comment sc))))).source <:+ sc.source :=
  ((stageSpec_pontuation _).1).trans (((stageSpec_string _).1).trans
    (((stageSpec_number _).1).trans (((stageSpec_identifier _).1).trans
      ((stageSpec_comment _).1))))

lemma chain4_suffix (sc : Scanner) :
    (parse_pontuation (parse_string (parse_number
      (parse_identifier sc)))).source <:+ sc.source :=
  ((stageSpec_pontuation _).1).trans (((stageSpec_string _).1).trans
    (((stageSpec_number _).1).trans ((stageSpec_identifier _).1)))

lemma chain3_suffix (sc : Scanner) :
    (parse_pontuation (parse_string (parse_number sc))).source <:+ sc.source :=
  ((stageSpec_pontuation _).1).trans (((stageSpec_string _).1).trans
    ((stageSpec_number _).1))

lemma chain2_suffix (sc : Scanner) :
    (parse_pontuation (parse_string sc)).source <:+ sc.source :=
  ((stageSpec_pontuation _).1).trans ((stageSpec_string _).1)

lemma pont_consumes_single (c : Char) (rest : List Char) (ts : List TokenType) (l : Nat)
    (h : c ∈ ['(', ')', '{', '}', ',', '.', '-', '+', ';', '*']) :
    (parse_pontuation ⟨c :: rest, ts, l⟩).source <:+ rest := by
  fin_cases h <;> (simp only [parse_pontuation]; exact List.suffix_refl _)

lemma pont_consumes_special (c : Char) (rest : List Char) (ts : List TokenType) (l : Nat)
    (h : c = '!' ∨ c = '=' ∨ c = '<' ∨ c = '>') :
    (parse_pontuation ⟨c :: rest, ts, l⟩).source <:+ rest := by
  rcases rest with _ | ⟨r2, rs⟩
  · rcases h with h | h | h | h <;> subst h <;>
      (simp only [parse_pontuation]; exact List.nil_suffix)
  · by_cases h2 : r2 = '='
    · subst h2
      rcases h with h | h | h | h <;> subst h <;>
        (simp only [parse_pontuation]; exact List.suffix_cons _ _)
    · rcases h with h | h | h | h <;> subst h <;>
        (simp only [parse_pontuation]; split) <;> simp_all

end BTVM

namespace BTVM

lemma pipe_progress (c : Char) (rest : List Char) (ts : List TokenType) (l : Nat)
    (hc : handledChar c = true) :
    (pipe ⟨c :: rest, ts, l⟩).source <:+ rest := by
  by_cases hws : isWsChar c = true
  · rw [pipe_eq]
    refine (chain5_suffix _).trans ?_
    simp only [parse_whitespace, wsLoop_eq]
    simp only [List.dropWhile_cons, hws, if_true]
    exact List.dropWhile_suffix _
  · have hws0 : isWsChar c = false := by simpa using hws
    by_cases hsl : c = '/'
    · subst hsl
      rw [pipe_eq, ws_nop _ _ _ _ hws0]
      refine (chain4_suffix _).trans ?_
      rcases rest with _ | ⟨c2, rest2⟩
      · have he : parse_comment ⟨['/'], ts, l⟩ = ⟨[], ts, l⟩ := rfl
        rw [he]
      · by_cases h2 : c2 = '/'
        · subst h2
          have he : parse_comment ⟨'/' :: '/' :: rest2, ts, l⟩ =
              ⟨(commentLoop ('/' :: rest2) l).1, ts, (commentLoop ('/' :: rest2) l).2⟩ := rfl
          rw [he]
          exact commentLoop_suffix _ _
        · have he : parse_comment ⟨'/' :: c2 :: rest2, ts, l⟩ = ⟨c2 :: rest2, ts, l⟩ := by
            simp only [parse_comment]
            split <;> simp_all
          rw [he]
    · by_cases hal : (isAlphabeticChar c || c = '_') = true
      · rw [pipe_eq, ws_nop _ _ _ _ hws0, comment_nop _ _ _ _ hsl]
        refine (chain3_suffix _).trans ?_
        have he : parse_identifier ⟨c :: rest, ts, l⟩ =
            ⟨(identLoop (c :: rest) []).1,
             ts ++ [keywordToken (String.mk (identLoop (c :: rest) []).2)], l⟩ := by
          simp [parse_identifier, hal]
        rw [he]
        have hcf : (isAlphanumericChar c || c = '_') = true := by
          rcases Bool.or_eq_true_iff.mp hal with h | h
          · exact Bool.or_eq_true_iff.mpr (Or.inl (alphanumeric_of_alphabetic h))
          · exact Bool.or_eq_true_iff.mpr (Or.inr h)
        have hil : identLoop (c :: rest) [] = identLoop rest [c] := by
          simp [identLoop, hcf]
        rw [hil]
        exact identLoop_suffix _ _
      · have hal0 : (isAlphabeticChar c || c = '_') = false := by simpa using hal
        by_cases hnu : isNumericChar c = true
        · rw [pipe_eq, ws_nop _ _ _ _ hws0, comment_nop _ _ _ _ hsl,
            ident_nop _ _ _ _ hal0]
          refine (chain2_suffix _).trans ?_
          obtain ⟨tk, -, heq⟩ := parse_number_eq rest ts l hnu
          rw [heq]
          show (numberLoop (c :: rest) l []).source <:+ rest
          rw [numberLoop_cons_of_numeric rest l [] hnu]
          exact (numberLoop_spec rest l [c]).1
        · have hnu0 : isNumericChar c = false := by simpa using hnu
          by_cases hqt : c = '"'
          · subst hqt
            rw [pipe_eq, ws_nop _ _ _ _ hws0, comment_nop _ _ _ _ hsl,
              ident_nop _ _ _ _ hal0, number_nop _ _ _ _ hnu0]
            refine ((stageSpec_pontuation _).1).trans ?_
            have he : parse_string ⟨'"' :: rest, ts, l⟩ =
                ⟨(stringLoop rest []).1,
                 ts ++ [.String (String.mk (stringLoop rest []).2)], l⟩ := rfl
            rw [he]
            exact stringLoop_suffix _ _
          · have hpunct : c ∈ ['(', ')', '{', '}', ',', '.', '-', '+', ';', '*'] ∨
                (c = '!' ∨ c = '=' ∨ c = '<' ∨ c = '>') := by
              simp only [handledChar, Bool.or_eq_true, decide_eq_true_eq] at hc
              have hal1 : ¬(isAlphabeticChar c = true) ∧ ¬(c = '_') := by
                constructor <;> intro hx <;> simp [hx] at hal0
              simp only [List.mem_cons, List.not_mem_nil, or_false]
              tauto
            rw [pipe_eq, ws_nop _ _ _ _ hws0, comment_nop _ _ _ _ hsl,
              ident_nop _ _ _ _ hal0, number_nop _ _ _ _ hnu0, string_nop _ _ _ _ hqt]
            rcases hpunct with h | h
            · exact pont_consumes_single c rest ts l h
            · exact pont_consumes_special c rest ts l h

lemma scanLoop_total : ∀ (fuel : Nat) (sc : Scanner),
    (∀ c ∈ sc.source, handledChar c = true) → sc.source.length < fuel →
    (scanLoop fuel sc).isSome = true := by
  intro fuel
  induction fuel with
  | zero => intro sc h hl; exact absurd hl (Nat.not_lt_zero _)
  | succ n ih =>
    intro sc hall hl
    rcases sc with ⟨src, ts, l⟩
    rcases src with _ | ⟨c, rest⟩
    · simp [scanLoop]
    · simp only [scanLoop]
      split
    
      · simp
      · apply ih
        · intro d hd
          exact hall d ((stageSpec_pipe ⟨c :: rest, ts, l⟩).1.subset hd)
        · have hp : (pipe ⟨c :: rest, ts, l⟩).source <:+ rest :=
            pipe_progress c rest ts l (hall c (List.mem_cons_self c rest))
          have := hp.length_le
          simp only [List.length_cons] at hl
          omega

end BTVM

namespace BTVM

/-- C1 (amended): what survives of the Error/Eof invariant: the End-of-stream
token appears at most once in the output of scan and, when present, is the
last element.  (The Error parts of the claim are refuted: scan can emit
several Error tokens, none of them last, and Eof can coexist with them,
because stages later in a pipeline pass keep running after an Error.) -/
theorem scan_eof_placement (src : List Char) (r : Scanner) (h : scan src = some r) :
    r.tokens.count TokenType.Eof ≤ 1 ∧
    (TokenType.Eof ∈ r.tokens → r.tokens.getLast? = some TokenType.Eof) :=
  scanLoop_eof_spec _ _ _ h (by simp)

theorem scan_eof_placement_witness :
    (⟨[], [TokenType.Eof], 1⟩ : Scanner).tokens.count TokenType.Eof ≤ 1 ∧
    (TokenType.Eof ∈ (⟨[], [TokenType.Eof], 1⟩ : Scanner).tokens →
      (⟨[], [TokenType.Eof], 1⟩ : Scanner).tokens.getLast? = some TokenType.Eof) :=
  scan_eof_placement [] ⟨[], [TokenType.Eof], 1⟩ rfl

/-- C3 (amended): the line counter is monotonically non-decreasing over the
whole scan, and it counts exactly the newlines consumed by the whitespace
stage and the comment stage; the string stage never touches it, so newlines
consumed inside string literals are not reflected in the final counter. -/
theorem line_counter_behavior :
    (∀ (fuel : Nat) (sc r : Scanner), scanLoop fuel sc = some r → sc.line ≤ r.line) ∧
    (∀ sc : Scanner, (parse_string sc).line = sc.line) ∧
    (∀ (src : List Char) (line : Nat),
      wsLoop src line = (src.dropWhile isWsChar, line + (src.takeWhile isWsChar).count '\n')) ∧
    (∀ (src : List Char) (line : Nat), ∃ pre,
      pre ++ (commentLoop src line).1 = src ∧
      (commentLoop src line).2 = line + pre.count '\n') := by
  refine ⟨scanLoop_line_mono, ?_, fun src line => wsLoop_eq src line,
    fun src line => commentLoop_spec src line⟩
  intro sc
  rcases sc with ⟨src, ts, l⟩
  rcases src with _ | ⟨c, rest⟩
  · rfl
  · by_cases h : c = '"'
    · subst h; rfl
    · rw [string_nop _ _ _ _ h]

theorem line_counter_behavior_witness :
    (⟨['a'], [], 3⟩ : Scanner).line ≤
      (⟨[], [TokenType.Identifier "a", TokenType.Eof], 3⟩ : Scanner).line ∧
    (parse_string ⟨['"', 'x'], [], 1⟩).line = (⟨['"', 'x'], [], 1⟩ : Scanner).line :=
  ⟨line_counter_behavior.1 2 ⟨['a'], [], 3⟩ ⟨[], [.Identifier "a", .Eof], 3⟩ (by decide),
   line_counter_behavior.2.1 ⟨['"', 'x'], [], 1⟩⟩

/-- C6: on any input all of whose characters are handled by some stage
(whitespace, slash, alphabetic, underscore, digits, double quote, or the
punctuation/operator characters), the driver terminates within input-length
iterations: running scan with its fuel of length + 1 returns a result. -/
theorem scan_terminates_on_handled (src : List Char)
    (h : ∀ c ∈ src, handledChar c = true) : (scan src).isSome = true :=
  scanLoop_total (src.length + 1) ⟨src, [], 1⟩ h (Nat.lt_succ_self _)

theorem scan_terminates_on_handled_witness : (scan ("1/3".toList)).isSome = true :=
  scan_terminates_on_handled _ (by decide)

end BTVM

namespace BTVM

/-! ## takeWhile/dropWhile over an all-satisfying prefix -/

lemma takeWhile_append_of_all {p : Char → Bool} (a b : List Char)
    (h : ∀ x ∈ a, p x = true) :
    List.takeWhile p (a ++ b) = a ++ List.takeWhile p b := by
  induction a with
  | nil => simp
  | cons x xs ih =>
    have hx := h x (List.mem_cons_self x xs)
    simp [List.takeWhile_cons, hx, ih (fun y hy => h y (List.mem_cons_of_mem x hy))]

lemma dropWhile_append_of_all {p : Char → Bool} (a b : List Char)
    (h : ∀ x ∈ a, p x = true) :
    List.dropWhile p (a ++ b) = List.dropWhile p b := by
  induction a with
  | nil => simp
  | cons x xs ih =>
    have hx := h x (List.mem_cons_self x xs)
    simp [List.dropWhile_cons, hx, ih (fun y hy => h y (List.mem_cons_of_mem x hy))]

/-- C5 (amended): the defensive parse-failure branch is reachable — the
character-class gate does not guarantee parse success (see the "1.2.3"
counterexample) — and the positive guarantee that survives is restricted to
the float grammar's own digit class: every accumulated text consisting of
ASCII digits, optionally followed by '.' and a further run of ASCII digits,
parses successfully.  The restriction to ASCII digits matters because the
gate (`char::is_numeric`) is wider than the float parser's digit class: a
non-ASCII numeric such as '½' passes the gate yet fails the parse, and the
modelled parser correctly rejects it (last conjunct). -/
theorem parseF64_single_dot_total (a b : List Char) (ha : a ≠ [])
    (hda : ∀ c ∈ a, isAsciiDigit c = true) (hdb : ∀ c ∈ b, isAsciiDigit c = true) :
    (parseF64 a).isSome = true ∧ (parseF64 (a ++ '.' :: b)).isSome = true ∧
    parseF64 ['½'] = none := by
  refine ⟨?_, ?_, by decide⟩
  · have hdrop : a.dropWhile isAsciiDigit = [] := List.dropWhile_eq_nil_iff.mpr hda
    have htake : a.takeWhile isAsciiDigit = a := List.takeWhile_eq_self_iff.mpr hda
    simp only [parseF64, hdrop, htake]
    simp [List.isEmpty_iff, ha]
  · have hdot : isAsciiDigit '.' = false := by decide
    have hdrop : (a ++ '.' :: b).dropWhile isAsciiDigit = '.' :: b := by
      rw [dropWhile_append_of_all a ('.' :: b) hda]
      simp [List.dropWhile_cons, hdot]
    have htake : (a ++ '.' :: b).takeWhile isAsciiDigit = a := by
      rw [takeWhile_append_of_all a ('.' :: b) hda]
      simp [List.takeWhile_cons, hdot]
    have hba : b.all isAsciiDigit = true := List.all_eq_true.mpr hdb
    simp only [parseF64, hdrop, htake]
    simp [List.isEmpty_iff, ha, hba]

theorem parseF64_single_dot_total_witness :
    (parseF64 ['1']).isSome = true ∧ (parseF64 (['1'] ++ '.' :: ['2'])).isSome = true ∧
    parseF64 ['½'] = none :=
  parseF64_single_dot_total ['1'] ['2'] (by decide) (by decide) (by decide)

/-- The sixteen reserved words of the identifier stage, in source order. -/
def reservedWords : List String :=
  ["and", "class", "else", "false", "fun", "for", "if", "nil", "or", "print",
   "return", "super", "this", "true", "var", "while"]

/-- C9: an input that begins with a double quote and contains no further
double quote (an unterminated string literal) still scans to a String token
whose payload is exactly the characters after the opening quote, with no
Error token: end of input is silently accepted in place of a closing
quote, and the End-of-stream token follows. -/
theorem scan_unterminated_string (s : List Char) (h : '"' ∉ s) :
    scan ('"' :: s) = some ⟨[], [TokenType.String (String.mk s), TokenType.Eof], 1⟩ := by
  have hpipe : pipe ⟨'"' :: s, [], 1⟩ = ⟨[], [TokenType.String (String.mk s)], 1⟩ := by
    rw [pipe_eq, ws_nop _ _ _ _ (by decide), comment_nop _ _ _ _ (by decide),
      ident_nop _ _ _ _ (by decide), number_nop _ _ _ _ (by decide)]
    have he : parse_string ⟨'"' :: s, [], 1⟩ =
        ⟨(stringLoop s []).1, [TokenType.String (String.mk (stringLoop s []).2)], 1⟩ := rfl
    rw [he, stringLoop_no_quote s h []]
    rfl
  show scanLoop (('"' :: s).length + 1) ⟨'"' :: s, [], 1⟩ = _
  have h1 : scanLoop (('"' :: s).length + 1) ⟨'"' :: s, [], 1⟩ =
      scanLoop (s.length + 1) (pipe ⟨'"' :: s, [], 1⟩) := rfl
  rw [h1, hpipe]
  rfl

theorem scan_unterminated_string_witness :
    scan ('"' :: ['a']) = some ⟨[], [TokenType.String (String.mk ['a']), TokenType.Eof], 1⟩ :=
  scan_unterminated_string ['a'] (by decide)

end BTVM

namespace BTVM

/-- C7: an input consisting solely of letters and underscores scans to a
single token followed by End-of-stream: the keyword-table lookup of the whole
text.  If the text is not one of the sixteen reserved words the token is
Identifier with payload equal to the input; if it is exactly a reserved word
(matching is whole-token and case-sensitive) the corresponding keyword token
is emitted and it is never an Identifier. -/
theorem identifier_keyword_scan (s : List Char) (hne : s ≠ [])
    (h : ∀ c ∈ s, (isAlphabeticChar c || c = '_') = true) :
    scan s = some ⟨[], [keywordToken (String.mk s), TokenType.Eof], 1⟩ ∧
    (String.mk s ∉ reservedWords →
      keywordToken (String.mk s) = TokenType.Identifier (String.mk s)) ∧
    (String.mk s ∈ reservedWords →
      ∀ t, keywordToken (String.mk s) ≠ TokenType.Identifier t) := by
  refine ⟨?_, ?_, ?_⟩
  · rcases s with _ | ⟨c, rest⟩
    · exact absurd rfl hne
    · have hc := h c (List.mem_cons_self c rest)
      have hws0 : isWsChar c = false := by
        rcases Bool.or_eq_true_iff.mp hc with h1 | h1
        · refine isWsChar_eq_false ?_ ?_ ?_ ?_ <;> exact bool_ne h1 (by decide)
        · have h2 := of_decide_eq_true h1
          subst h2
          decide
      have hsl : c ≠ '/' := by
        rcases Bool.or_eq_true_iff.mp hc with h1 | h1
        · exact bool_ne h1 (by decide)
        · have h2 := of_decide_eq_true h1
          subst h2
          decide
      have hall : ∀ x ∈ c :: rest, (isAlphanumericChar x || x = '_') = true := by
        intro x hx
        rcases Bool.or_eq_true_iff.mp (h x hx) with h1 | h1
        · exact Bool.or_eq_true_iff.mpr (Or.inl (alphanumeric_of_alphabetic h1))
        · exact Bool.or_eq_true_iff.mpr (Or.inr h1)
      have hpipe : pipe ⟨c :: rest, [], 1⟩ =
          ⟨[], [keywordToken (String.mk (c :: rest))], 1⟩ := by
        rw [pipe_eq, ws_nop _ _ _ _ hws0, comment_nop _ _ _ _ hsl]
        have he : parse_identifier ⟨c :: rest, [], 1⟩ =
            ⟨[], [keywordToken (String.mk (c :: rest))], 1⟩ := by
          simp [parse_identifier, hc, identLoop_all (c :: rest) hall []]
        rw [he]
        rfl
      show scanLoop ((c :: rest).length + 1) ⟨c :: rest, [], 1⟩ = _
      have h1 : scanLoop ((c :: rest).length + 1) ⟨c :: rest, [], 1⟩ =
          scanLoop (rest.length + 1) (pipe ⟨c :: rest, [], 1⟩) := rfl
      rw [h1, hpipe]
      rfl
  · intro hnot
    simp only [reservedWords, List.mem_cons, List.not_mem_nil, or_false, not_or] at hnot
    obtain ⟨a1, a2, a3, a4, a5, a6, a7, a8, a9, a10, a11, a12, a13, a14, a15, a16⟩ := hnot
    simp [keywordToken, a1, a2, a3, a4, a5, a6, a7, a8, a9, a10, a11, a12, a13, a14,
      a15, a16]
  · intro hmem t
    have k1 : keywordToken "and" = TokenType.And := by decide
    have k2 : keywordToken "class" = TokenType.Class := by decide
    have k3 : keywordToken "else" = TokenType.Else := by decide
    have k4 : keywordToken "false" = TokenType.False := by decide
    have k5 : keywordToken "fun" = TokenType.Fun := by decide
    have k6 : keywordToken "for" = TokenType.For := by decide
    have k7 : keywordToken "if" = TokenType.If := by decide
    have k8 : keywordToken "nil" = TokenType.Nil := by decide
    have k9 : keywordToken "or" = TokenType.Or := by decide
    have k10 : keywordToken "print" = TokenType.Print := by decide
    have k11 : keywordToken "return" = TokenType.Return := by decide
    have k12 : keywordToken "super" = TokenType.Super := by decide
    have k13 : keywordToken "this" = TokenType.This := by decide
    have k14 : keywordToken "true" = TokenType.True := by decide
    have k15 : keywordToken "var" = TokenType.Var := by decide
    have k16 : keywordToken "while" = TokenType.While := by decide
    simp only [reservedWords, List.mem_cons, List.not_mem_nil, or_false] at hmem
    rcases hmem with h1 | h1 | h1 | h1 | h1 | h1 | h1 | h1 | h1 | h1 | h1 | h1 | h1 | h1 | h1 | h1 <;>
      rw [h1] <;>
      simp [k1, k2, k3, k4, k5, k6, k7, k8, k9, k10, k11, k12, k13, k14, k15, k16]

theorem identifier_keyword_scan_witness :
    scan ("forest".toList) =
      some ⟨[], [keywordToken (String.mk ("forest".toList)), TokenType.Eof], 1⟩ ∧
    keywordToken (String.mk ("forest".toList)) =
      TokenType.Identifier (String.mk ("forest".toList)) := by
  have h := identifier_keyword_scan ("forest".toList) (by decide) (by decide)
  exact ⟨h.1, h.2.1 (by decide)⟩

end BTVM
